import Mathlib

set_option maxHeartbeats 1000000

/-!
Verification of the gomodproxy fetch-cache-materialize pipeline.

The Go sources are shallowly embedded: Go strings are Lean `String`
(operated on through their underlying `List Char`), Go slices are Lean
lists, the in-memory LRU's doubly-linked list is modelled as a list of
snapshots in MRU-to-LRU order, `int64` quantities are `Int`
(the tracked cache size is a sum of slice lengths and cannot overflow a
64-bit counter in any realizable execution, so wraparound is not
modelled), and fallible Go functions return `Except String`.
-/

/-! ## String helpers (Go `strings` package, single-character separators) -/

/-- Model of Go `strings.Split(s, sep)` for a one-character separator,
on the character list of the string. -/
def splitOnChar (sep : Char) : List Char → List (List Char)
  | [] => [[]]
  | c :: cs =>
    match splitOnChar sep cs with
    | [] => [[]]
    | f :: rest => if c = sep then [] :: f :: rest else (c :: f) :: rest

theorem splitOnChar_ne_nil (sep : Char) (l : List Char) : splitOnChar sep l ≠ [] := by
  cases l with
  | nil => simp [splitOnChar]
  | cons c cs =>
    simp only [splitOnChar]
    cases h : splitOnChar sep cs with
    | nil => simp
    | cons f rest =>
      by_cases hc : c = sep <;> simp [hc]

theorem splitOnChar_length (sep : Char) (l : List Char) :
    (splitOnChar sep l).length = l.count sep + 1 := by
  induction l with
  | nil => simp [splitOnChar]
  | cons c cs ih =>
    simp only [splitOnChar]
    cases h : splitOnChar sep cs with
    | nil => exact absurd h (splitOnChar_ne_nil sep cs)
    | cons f rest =>
      rw [h] at ih
      simp only [List.length_cons] at ih
      by_cases hc : c = sep
      · subst hc
        simp only [if_pos rfl, List.length_cons, List.count_cons, beq_self_eq_true,
          if_true]
        omega
      · have hsc : (sep == c) = false := beq_eq_false_iff_ne.mpr (fun e => hc e.symm)
        have hcs2 : (c == sep) = false := beq_eq_false_iff_ne.mpr hc
        simp only [if_neg hc, List.length_cons, List.count_cons, hsc, hcs2,
          Bool.false_eq_true, if_false]
        omega

theorem splitOnChar_no_sep (sep : Char) (l : List Char) (h : sep ∉ l) :
    splitOnChar sep l = [l] := by
  induction l with
  | nil => rfl
  | cons c cs ih =>
    simp only [List.mem_cons, not_or] at h
    simp only [splitOnChar, ih h.2]
    have : ¬ c = sep := fun hceq => h.1 hceq.symm
    simp [this]

theorem splitOnChar_append_sep (sep : Char) (a r : List Char) (ha : sep ∉ a) :
    splitOnChar sep (a ++ sep :: r) = a :: splitOnChar sep r := by
  induction a with
  | nil =>
    simp only [List.nil_append, splitOnChar]
    cases h : splitOnChar sep r with
    | nil => exact absurd h (splitOnChar_ne_nil sep r)
    | cons f rest => simp
  | cons c cs ih =>
    simp only [List.mem_cons, not_or] at ha
    have hne : ¬ c = sep := fun hceq => ha.1 hceq.symm
    have h1 : splitOnChar sep ((c :: cs) ++ sep :: r) =
        match splitOnChar sep (cs ++ sep :: r) with
        | [] => [[]]
        | f :: rest => if c = sep then [] :: f :: rest else (c :: f) :: rest := rfl
    rw [h1, ih ha.2]
    simp [hne]

theorem splitOnChar_cons_inv (sep : Char) (l a : List Char) (rest : List (List Char))
    (h : splitOnChar sep l = a :: rest) :
    sep ∉ a ∧ (rest = [] → l = a) ∧
    (rest ≠ [] → ∃ r, l = a ++ sep :: r ∧ splitOnChar sep r = rest) := by
  induction l generalizing a rest with
  | nil =>
    simp only [splitOnChar, List.cons.injEq] at h
    obtain ⟨rfl, rfl⟩ := h
    exact ⟨by simp, fun _ => rfl, fun hne => absurd rfl hne⟩
  | cons c cs ih =>
    simp only [splitOnChar] at h
    cases hcs : splitOnChar sep cs with
    | nil => exact absurd hcs (splitOnChar_ne_nil sep cs)
    | cons f rest' =>
      rw [hcs] at h
      by_cases hc : c = sep
      · subst hc
        simp only [if_pos rfl, List.cons.injEq] at h
        obtain ⟨rfl, rfl⟩ := h
        refine ⟨by simp, fun hne => by simp at hne, fun _ => ⟨cs, by simp, hcs⟩⟩
      · simp only [if_neg hc, List.cons.injEq] at h
        obtain ⟨rfl, rfl⟩ := h
        obtain ⟨hf, hnil, hcons⟩ := ih f rest' hcs
        refine ⟨?_, ?_, ?_⟩
        · simp only [List.mem_cons, not_or]
          exact ⟨fun hceq => hc hceq.symm, hf⟩
        · intro hrest
          rw [hnil hrest]
        · intro hrest
          obtain ⟨r, hr1, hr2⟩ := hcons hrest
          exact ⟨r, by rw [hr1]; rfl, hr2⟩

/-- Model of Go `strings.Join(parts, "/")`. -/
def joinSlash : List String → String
  | [] => ""
  | [x] => x
  | x :: xs => x ++ "/" ++ joinSlash xs

/-! ## Version model (`pkg/vcs/vcs.go`) -/

/-- Helper for `isSemVer`: the dot-separated groups after the leading `v`
must be exactly three non-empty all-digit groups. -/
def semVerGroups : List (List Char) → Bool
  | [a, b, c] =>
    decide (a ≠ []) && decide (b ≠ []) && decide (c ≠ []) &&
      a.all Char.isDigit && b.all Char.isDigit && c.all Char.isDigit
  | _ => false

/-- Model of `Version.IsSemVer`: match of the anchored regular expression
`^v\d+\.\d+\.\d+$` from the source, expressed as a decision procedure. -/
def isSemVer (v : String) : Bool :=
  match v.data with
  | [] => false
  | c0 :: rest => decide (c0 = 'v') && semVerGroups (splitOnChar '.' rest)

/-- The language of the regular expression `^v\d+\.\d+\.\d+$`: a `v`
followed by three non-empty digit groups separated by dots. -/
def SemVerShape (v : String) : Prop :=
  ∃ a b c : List Char,
    a ≠ [] ∧ b ≠ [] ∧ c ≠ [] ∧
    (∀ ch ∈ a, ch.isDigit) ∧ (∀ ch ∈ b, ch.isDigit) ∧ (∀ ch ∈ c, ch.isDigit) ∧
    v.data = 'v' :: (a ++ '.' :: (b ++ '.' :: c))

/-- Model of `Version.Hash`: the third dash-separated field when there are
exactly three, else the empty string. -/
def versionHash (v : String) : String :=
  match splitOnChar '-' v.data with
  | [_, _, c] => String.mk c
  | _ => ""

theorem isSemVer_iff_shape (v : String) : isSemVer v = true ↔ SemVerShape v := by
  constructor
  · intro h
    unfold isSemVer at h
    cases hv : v.data with
    | nil => rw [hv] at h; simp at h
    | cons c0 rest =>
      rw [hv] at h
      replace h : (decide (c0 = 'v') && semVerGroups (splitOnChar '.' rest)) = true := h
      simp only [Bool.and_eq_true, decide_eq_true_eq] at h
      obtain ⟨rfl, h⟩ := h
      cases hs : splitOnChar '.' rest with
      | nil => exact absurd hs (splitOnChar_ne_nil '.' rest)
      | cons a tl =>
        cases tl with
        | nil => rw [hs] at h; simp [semVerGroups] at h
        | cons b tl2 =>
          cases tl2 with
          | nil => rw [hs] at h; simp [semVerGroups] at h
          | cons c tl3 =>
            cases tl3 with
            | cons d tl4 => rw [hs] at h; simp [semVerGroups] at h
            | nil =>
              rw [hs] at h
              simp only [semVerGroups, Bool.and_eq_true, decide_eq_true_eq,
                List.all_eq_true] at h
              obtain ⟨⟨⟨⟨⟨ha, hb⟩, hc⟩, hda⟩, hdb⟩, hdc⟩ := h
              obtain ⟨hna, hrest1, hcons1⟩ := splitOnChar_cons_inv '.' rest a [b, c] hs
              obtain ⟨r, hr1, hr2⟩ := hcons1 (by simp)
              obtain ⟨hnb, hrest2, hcons2⟩ := splitOnChar_cons_inv '.' r b [c] hr2
              obtain ⟨r2, hr21, hr22⟩ := hcons2 (by simp)
              obtain ⟨hnc, hrest3, _⟩ := splitOnChar_cons_inv '.' r2 c [] hr22
              refine ⟨a, b, c, ha, hb, hc, hda, hdb, hdc, ?_⟩
              rw [hv, hr1, hr21, hrest3 rfl]
  · rintro ⟨a, b, c, ha, hb, hc, hda, hdb, hdc, hv⟩
    have hna : '.' ∉ a := fun hm => by simpa using hda '.' hm
    have hnb : '.' ∉ b := fun hm => by simpa using hdb '.' hm
    have hnc : '.' ∉ c := fun hm => by simpa using hdc '.' hm
    show isSemVer v = true
    unfold isSemVer
    rw [hv]
    show (decide (('v' : Char) = 'v') &&
      semVerGroups (splitOnChar '.' (a ++ '.' :: (b ++ '.' :: c)))) = true
    rw [splitOnChar_append_sep '.' a (b ++ '.' :: c) hna,
      splitOnChar_append_sep '.' b c hnb, splitOnChar_no_sep '.' c hnc]
    simp only [semVerGroups, Bool.and_eq_true, decide_eq_true_eq, List.all_eq_true]
    exact ⟨trivial, ⟨⟨⟨⟨⟨ha, hb⟩, hc⟩, hda⟩, hdb⟩, hdc⟩⟩

theorem versionHash_ne_empty_iff (v : String) :
    versionHash v ≠ "" ↔ (v.data.count '-' = 2 ∧ v.data.getLast? ≠ some '-') := by
  have hlen := splitOnChar_length '-' v.data
  constructor
  · intro h
    unfold versionHash at h
    cases hs : splitOnChar '-' v.data with
    | nil => exact absurd hs (splitOnChar_ne_nil _ _)
    | cons a tl =>
      rw [hs] at h
      cases tl with
      | nil => exact absurd rfl h
      | cons b tl2 =>
        cases tl2 with
        | nil => exact absurd rfl h
        | cons c tl3 =>
          cases tl3 with
          | cons d tl4 => exact absurd rfl h
          | nil =>
            replace h : String.mk c ≠ "" := h
            have hcne : c ≠ [] := fun hcnil => h (by rw [hcnil])
            obtain ⟨hna, _, hcons1⟩ := splitOnChar_cons_inv '-' v.data a [b, c] hs
            obtain ⟨r, hr1, hr2⟩ := hcons1 (by simp)
            obtain ⟨hnb, _, hcons2⟩ := splitOnChar_cons_inv '-' r b [c] hr2
            obtain ⟨r2, hr21, hr22⟩ := hcons2 (by simp)
            obtain ⟨hnc, hrest3, _⟩ := splitOnChar_cons_inv '-' r2 c [] hr22
            have hvdata : v.data = a ++ '-' :: (b ++ '-' :: c) := by
              rw [hr1, hr21, hrest3 rfl]
            constructor
            · rw [hs] at hlen
              simpa using hlen.symm
            · rw [hvdata, List.getLast?_append_cons]
              have hsplit : ('-' :: (b ++ '-' :: c)) = ('-' :: b) ++ '-' :: c := by
                simp
              rw [hsplit, List.getLast?_append_cons]
              cases c with
              | nil => exact absurd rfl hcne
              | cons c0 cs =>
                rw [List.getLast?_cons_cons]
                intro hlast
                obtain ⟨hne2, heq⟩ := List.mem_getLast?_eq_getLast
                  (show '-' ∈ (c0 :: cs).getLast? from hlast)
                have hmem := List.getLast_mem hne2
                rw [← heq] at hmem
                exact hnc hmem
  · rintro ⟨hcount, hlast⟩
    have hlen3 : (splitOnChar '-' v.data).length = 3 := by
      rw [hlen, hcount]
    obtain ⟨a, b, c, hs⟩ := List.length_eq_three.mp hlen3
    obtain ⟨hna, _, hcons1⟩ := splitOnChar_cons_inv '-' v.data a [b, c] hs
    obtain ⟨r, hr1, hr2⟩ := hcons1 (by simp)
    obtain ⟨hnb, _, hcons2⟩ := splitOnChar_cons_inv '-' r b [c] hr2
    obtain ⟨r2, hr21, hr22⟩ := hcons2 (by simp)
    obtain ⟨hnc, hrest3, _⟩ := splitOnChar_cons_inv '-' r2 c [] hr22
    have hvdata : v.data = a ++ '-' :: (b ++ '-' :: c) := by
      rw [hr1, hr21, hrest3 rfl]
    have hcne : c ≠ [] := by
      intro hcnil
      apply hlast
      rw [hvdata, hcnil, List.getLast?_append_cons]
      have hsplit : ('-' :: (b ++ '-' :: ([] : List Char))) =
          ('-' :: b) ++ '-' :: ([] : List Char) := by simp
      rw [hsplit, List.getLast?_append_cons]
      rfl
    unfold versionHash
    rw [hs]
    intro hemp
    apply hcne
    have := congrArg String.data hemp
    simpa using this

theorem isSemVer_count_dash (v : String) (h : isSemVer v = true) :
    v.data.count '-' = 0 := by
  obtain ⟨a, b, c, _, _, _, hda, hdb, hdc, hv⟩ := (isSemVer_iff_shape v).mp h
  rw [hv]
  rw [List.count_eq_zero]
  intro hmem
  simp only [List.mem_cons, List.mem_append] at hmem
  rcases hmem with h1 | h1
  · exact absurd h1 (by decide)
  · rcases h1 with h2 | h2
    · simpa using hda '-' h2
    · rcases h2 with h3 | h3
      · exact absurd h3 (by decide)
      · rcases h3 with h4 | h4
        · simpa using hdb '-' h4
        · rcases h4 with h5 | h5
          · exact absurd h5 (by decide)
          · simpa using hdc '-' h5

/-- C5 counterexample: the string `"a-b-"` has exactly two `-` separators,
yet `Hash` returns the empty string (the third dash-separated field is
empty), refuting the claimed equivalence `Hash(v) ≠ "" ⇔ exactly two
dashes`. -/
theorem c5_counterexample :
    ("a-b-" : String).data.count '-' = 2 ∧ versionHash "a-b-" = "" := by
  constructor
  · decide
  · decide

/-- C5 (amended): `IsSemVer(v)` holds iff `v` matches `^v\d+\.\d+\.\d+$`;
`Hash(v)` is non-empty iff `v` has exactly two `-` separators AND does not
end in `-` (the third field must be non-empty); the two predicates are
mutually exclusive; the empty string satisfies neither. -/
theorem c5_version_predicates (v : String) :
    (isSemVer v = true ↔ SemVerShape v) ∧
    (versionHash v ≠ "" ↔ (v.data.count '-' = 2 ∧ v.data.getLast? ≠ some '-')) ∧
    (¬ (isSemVer v = true ∧ versionHash v ≠ "")) ∧
    (isSemVer "" = false ∧ versionHash "" = "") := by
  refine ⟨isSemVer_iff_shape v, versionHash_ne_empty_iff v, ?_, by decide, by decide⟩
  rintro ⟨h1, h2⟩
  have hz := isSemVer_count_dash v h1
  have h2c := ((versionHash_ne_empty_iff v).mp h2).1
  omega

/-! ## Snapshot and the in-memory LRU store (`pkg/store/mem.go`) -/

/-- Model of `store.Snapshot`: module path, version, commit timestamp, and
the archive bytes (modelled as a list of byte values). -/
structure Snapshot where
  Module : String
  Version : String
  Timestamp : Int
  Data : List Nat
deriving DecidableEq

/-- The key comparison from `memory.lookup`:
`item.Module == module && item.Version == version`. -/
def keyMatches (s : Snapshot) (module version : String) : Bool :=
  decide (s.Module = module) && decide (s.Version = version)

/-- The in-memory LRU state (`store.memory`): the doubly-linked list is
modelled as the list of snapshots from head (most recent) to tail (least
recent), together with the tracked byte `size` and the configured `limit`
(`int64`, negative disables eviction). -/
structure Mem where
  limit : Int
  size : Int
  list : List Snapshot
deriving DecidableEq

/-- Model of `store.Memory(log, limit)`: fresh empty cache. -/
def memInit (limit : Int) : Mem := { limit := limit, size := 0, list := [] }

/-- The head-to-tail scan of `memory.lookup`: first node with the key. -/
def findSnap (module version : String) : List Snapshot → Option Snapshot
  | [] => none
  | s :: rest =>
    if keyMatches s module version then some s else findSnap module version rest

/-- Unlink of the first node with the key, as performed on a hit by
`memory.update`'s pointer splice. -/
def removeFirst (module version : String) : List Snapshot → List Snapshot
  | [] => []
  | s :: rest =>
    if keyMatches s module version then rest else s :: removeFirst module version rest

/-- Model of `memory.lookup`: scan from head; on a hit `memory.update`
moves the hit node to the head (a no-op when it already is the head).
Returns the found snapshot, if any, together with the updated list. -/
def memLookup (module version : String) (l : List Snapshot) :
    Option Snapshot × List Snapshot :=
  match findSnap module version l with
  | none => (none, l)
  | some s => (some s, s :: removeFirst module version l)

/-- Sum of `len(item.Data)` over the list, as tracked by `memory.size`. -/
def sumLen : List Snapshot → Int
  | [] => 0
  | s :: rest => (s.Data.length : Int) + sumLen rest

/-- Model of `memory.Put`'s eviction loop
(`for m.limit >= 0 && m.size > m.limit { m.evict() }`): drop the tail node
and subtract its data length while the guard holds. At the point where the
Go code would dereference a nil `m.tail` (guard true on an empty list) the
model returns the state unchanged; under the size invariant that point is
unreachable. -/
def evictFuel (limit : Int) : Nat → Int → List Snapshot → Int × List Snapshot
  | 0, size, l => (size, l)
  | fuel + 1, size, l =>
    if 0 ≤ limit ∧ limit < size then
      match l with
      | [] => (size, [])
      | s :: rest =>
        evictFuel limit fuel
          (size - (((s :: rest).getLast (by simp)).Data.length : Int))
          ((s :: rest).dropLast)
    else (size, l)

/-- Each loop iteration removes one node, so `l.length` rounds of fuel are
always enough: the fuel-exhausted branch of `evictFuel` is unreachable. -/
def evictLoop (limit size : Int) (l : List Snapshot) : Int × List Snapshot :=
  evictFuel limit l.length size l

/-- Model of `memory.Put`: on a duplicate key, return success without
inserting (the embedded `lookup` still splices the hit node to the head);
otherwise insert at head, add the data length to `size`, then run the
eviction loop. The source's `Put` always returns a nil error, so the model
returns only the new state. -/
def memPut (snap : Snapshot) (m : Mem) : Mem :=
  match memLookup snap.Module snap.Version m.list with
  | (some _, l2) => { m with list := l2 }
  | (none, _) =>
    let grown := m.size + (snap.Data.length : Int)
    let res := evictLoop m.limit grown (snap :: m.list)
    { m with size := res.1, list := res.2 }

/-- Model of `memory.Get`: `lookup` under the lock. -/
def memGet (module version : String) (m : Mem) : Option Snapshot × Mem :=
  let res := memLookup module version m.list
  (res.1, { m with list := res.2 })

/-- A client-visible operation on the memory tier. -/
inductive MemOp where
  | put (s : Snapshot)
  | get (module version : String)
deriving DecidableEq

def memStep (m : Mem) : MemOp → Mem
  | .put s => memPut s m
  | .get module version => (memGet module version m).2

def memRun (limit : Int) (ops : List MemOp) : Mem :=
  ops.foldl memStep (memInit limit)

theorem sumLen_append (l1 l2 : List Snapshot) :
    sumLen (l1 ++ l2) = sumLen l1 + sumLen l2 := by
  induction l1 with
  | nil => simp [sumLen]
  | cons s rest ih => simp [sumLen, ih]; ring

theorem findSnap_keyMatches (module version : String) (l : List Snapshot)
    (s : Snapshot) (h : findSnap module version l = some s) :
    keyMatches s module version = true := by
  induction l with
  | nil => simp [findSnap] at h
  | cons hd rest ih =>
    unfold findSnap at h
    by_cases hm : keyMatches hd module version
    · rw [if_pos hm] at h
      cases h
      exact hm
    · rw [if_neg hm] at h
      exact ih h

theorem findSnap_fields (module version : String) (l : List Snapshot)
    (s : Snapshot) (h : findSnap module version l = some s) :
    s.Module = module ∧ s.Version = version := by
  have := findSnap_keyMatches module version l s h
  unfold keyMatches at this
  simp only [Bool.and_eq_true, decide_eq_true_eq] at this
  exact this

theorem sumLen_removeFirst (module version : String) (l : List Snapshot)
    (s : Snapshot) (h : findSnap module version l = some s) :
    sumLen l = (s.Data.length : Int) + sumLen (removeFirst module version l) := by
  induction l with
  | nil => simp [findSnap] at h
  | cons hd rest ih =>
    unfold findSnap at h
    unfold removeFirst
    by_cases hm : keyMatches hd module version
    · rw [if_pos hm] at h
      cases h
      rw [if_pos hm]
      rfl
    · rw [if_neg hm] at h
      rw [if_neg hm]
      simp only [sumLen]
      rw [ih h]
      ring

theorem length_removeFirst (module version : String) (l : List Snapshot)
    (s : Snapshot) (h : findSnap module version l = some s) :
    (removeFirst module version l).length + 1 = l.length := by
  induction l with
  | nil => simp [findSnap] at h
  | cons hd rest ih =>
    unfold findSnap at h
    unfold removeFirst
    by_cases hm : keyMatches hd module version
    · rw [if_pos hm] at h
      rw [if_pos hm]
      rfl
    · rw [if_neg hm] at h
      rw [if_neg hm]
      simp only [List.length_cons]
      rw [ih h]

theorem perm_removeFirst (module version : String) (l : List Snapshot)
    (s : Snapshot) (h : findSnap module version l = some s) :
    l.Perm (s :: removeFirst module version l) := by
  induction l with
  | nil => simp [findSnap] at h
  | cons hd rest ih =>
    unfold findSnap at h
    unfold removeFirst
    by_cases hm : keyMatches hd module version
    · rw [if_pos hm] at h
      cases h
      rw [if_pos hm]
    · rw [if_neg hm] at h
      rw [if_neg hm]
      exact ((ih h).cons hd).trans (List.Perm.swap s hd _)

theorem sumLen_dropLast (s : Snapshot) (rest : List Snapshot) :
    sumLen (s :: rest) =
      sumLen ((s :: rest).dropLast) +
        (((s :: rest).getLast (by simp)).Data.length : Int) := by
  have hsplit := List.dropLast_append_getLast (l := s :: rest) (by simp)
  calc sumLen (s :: rest)
      = sumLen ((s :: rest).dropLast ++ [(s :: rest).getLast (by simp)]) := by
        rw [hsplit]
    _ = sumLen ((s :: rest).dropLast) +
        (((s :: rest).getLast (by simp)).Data.length : Int) := by
        rw [sumLen_append]; simp [sumLen]

theorem evictFuel_spec (limit : Int) (fuel : Nat) (size : Int) (l : List Snapshot)
    (hfuel : l.length ≤ fuel) (h : size = sumLen l) :
    (evictFuel limit fuel size l).1 = sumLen (evictFuel limit fuel size l).2 ∧
    (0 ≤ limit →
      ((evictFuel limit fuel size l).1 ≤ limit ∨ (evictFuel limit fuel size l).2 = [])) := by
  induction fuel generalizing size l with
  | zero =>
    have hnil : l = [] := List.length_eq_zero.mp (Nat.le_zero.mp hfuel)
    subst hnil
    exact ⟨h, fun _ => Or.inr rfl⟩
  | succ fuel ih =>
    simp only [evictFuel]
    by_cases hg : 0 ≤ limit ∧ limit < size
    · rw [if_pos hg]
      cases l with
      | nil => exact ⟨by simpa [sumLen] using h, fun _ => Or.inr rfl⟩
      | cons s rest =>
        have hfuel2 : ((s :: rest).dropLast).length ≤ fuel := by
          simp only [List.length_dropLast, List.length_cons] at hfuel ⊢
          omega
        have harg : size - (((s :: rest).getLast (by simp)).Data.length : Int) =
            sumLen ((s :: rest).dropLast) := by
          rw [h, sumLen_dropLast]
          ring
        exact ih _ _ hfuel2 harg
    · rw [if_neg hg]
      refine ⟨h, fun hl => Or.inl ?_⟩
      rw [not_and_or] at hg
      rcases hg with h1 | h1
      · exact absurd hl h1
      · omega

theorem evictLoop_spec (limit : Int) (size : Int) (l : List Snapshot)
    (h : size = sumLen l) :
    (evictLoop limit size l).1 = sumLen (evictLoop limit size l).2 ∧
    (0 ≤ limit →
      ((evictLoop limit size l).1 ≤ limit ∨ (evictLoop limit size l).2 = [])) :=
  evictFuel_spec limit l.length size l le_rfl h

theorem memPut_eq_dup (snap : Snapshot) (m : Mem) (hit : Snapshot)
    (hf : findSnap snap.Module snap.Version m.list = some hit) :
    memPut snap m =
      { m with list := hit :: removeFirst snap.Module snap.Version m.list } := by
  unfold memPut memLookup
  rw [hf]

theorem memPut_eq_miss (snap : Snapshot) (m : Mem)
    (hf : findSnap snap.Module snap.Version m.list = none) :
    memPut snap m =
      { m with
        size := (evictLoop m.limit (m.size + (snap.Data.length : Int)) (snap :: m.list)).1,
        list := (evictLoop m.limit (m.size + (snap.Data.length : Int)) (snap :: m.list)).2 } := by
  unfold memPut memLookup
  rw [hf]

theorem memGet_eq_hit (module version : String) (m : Mem) (hit : Snapshot)
    (hf : findSnap module version m.list = some hit) :
    memGet module version m =
      (some hit, { m with list := hit :: removeFirst module version m.list }) := by
  unfold memGet memLookup
  rw [hf]

theorem memGet_eq_miss (module version : String) (m : Mem)
    (hf : findSnap module version m.list = none) :
    memGet module version m = (none, m) := by
  unfold memGet memLookup
  rw [hf]

/-- The per-state invariant of the memory tier: the tracked size is the sum
of the node data lengths, and with a non-negative limit the size is within
the limit or the list is empty. -/
def MemInv (m : Mem) : Prop :=
  m.size = sumLen m.list ∧ (0 ≤ m.limit → (m.size ≤ m.limit ∨ m.list = []))

theorem MemInv_refresh (m : Mem) (module version : String) (hit : Snapshot)
    (hf : findSnap module version m.list = some hit) (h : MemInv m) :
    MemInv { m with list := hit :: removeFirst module version m.list } := by
  obtain ⟨h1, h2⟩ := h
  constructor
  · show m.size = sumLen (hit :: removeFirst module version m.list)
    show m.size = (hit.Data.length : Int) + sumLen (removeFirst module version m.list)
    rw [h1, sumLen_removeFirst module version m.list hit hf]
  · intro hl
    rcases h2 hl with hle | hemp
    · exact Or.inl hle
    · rw [hemp] at hf
      simp [findSnap] at hf

theorem memStep_inv (m : Mem) (op : MemOp) (h : MemInv m) : MemInv (memStep m op) := by
  cases op with
  | put snap =>
    show MemInv (memPut snap m)
    cases hf : findSnap snap.Module snap.Version m.list with
    | some hit =>
      rw [memPut_eq_dup snap m hit hf]
      exact MemInv_refresh m snap.Module snap.Version hit hf h
    | none =>
      rw [memPut_eq_miss snap m hf]
      have hpre : m.size + (snap.Data.length : Int) = sumLen (snap :: m.list) := by
        simp only [sumLen]
        rw [h.1]
        ring
      exact evictLoop_spec m.limit (m.size + (snap.Data.length : Int))
        (snap :: m.list) hpre
  | get module version =>
    show MemInv ((memGet module version m).2)
    cases hf : findSnap module version m.list with
    | some hit =>
      rw [memGet_eq_hit module version m hit hf]
      exact MemInv_refresh m module version hit hf h
    | none =>
      rw [memGet_eq_miss module version m hf]
      exact h

theorem foldl_memStep_inv (ops : List MemOp) (m : Mem) (h : MemInv m) :
    MemInv (ops.foldl memStep m) := by
  induction ops generalizing m with
  | nil => exact h
  | cons op rest ih => exact ih (memStep m op) (memStep_inv m op h)

theorem memRun_inv (limit : Int) (ops : List MemOp) : MemInv (memRun limit ops) :=
  foldl_memStep_inv ops (memInit limit) ⟨rfl, fun _ => Or.inr rfl⟩

theorem memStep_limit (m : Mem) (op : MemOp) : (memStep m op).limit = m.limit := by
  cases op with
  | put snap =>
    show (memPut snap m).limit = m.limit
    cases hf : findSnap snap.Module snap.Version m.list with
    | some hit => rw [memPut_eq_dup snap m hit hf]
    | none => rw [memPut_eq_miss snap m hf]
  | get module version =>
    show ((memGet module version m).2).limit = m.limit
    cases hf : findSnap module version m.list with
    | some hit => rw [memGet_eq_hit module version m hit hf]
    | none => rw [memGet_eq_miss module version m hf]

theorem memRun_limit (limit : Int) (ops : List MemOp) :
    (memRun limit ops).limit = limit := by
  suffices H : ∀ (m : Mem), (ops.foldl memStep m).limit = m.limit by
    exact H (memInit limit)
  induction ops with
  | nil => intro m; rfl
  | cons op rest ih =>
    intro m
    show (rest.foldl memStep (memStep m op)).limit = m.limit
    rw [ih (memStep m op), memStep_limit]

/-- Concrete snapshots used by witnesses. -/
def snapA : Snapshot := ⟨"a", "v1.0.0", 0, [1]⟩

def snapB : Snapshot := ⟨"b", "v1.0.0", 0, [1, 1]⟩

/-- C2: after every sequence of `Put`/`Get` operations on a memory tier
constructed with `limit ≥ 0`, the tracked `size` equals the sum of
`len(data)` over the list nodes, and `size ≤ limit` or the list is empty.
Every `Put` terminates: `evictLoop` is a total function whose fuel
(`l.length`) bounds the iterations of the source's eviction loop, which
stops at the latest when the list becomes empty. -/
theorem c2_memory_size_invariant (limit : Int) (ops : List MemOp)
    (hlimit : 0 ≤ limit) :
    (memRun limit ops).size = sumLen (memRun limit ops).list ∧
    ((memRun limit ops).size ≤ limit ∨ (memRun limit ops).list = []) := by
  have hinv := memRun_inv limit ops
  have hl := memRun_limit limit ops
  refine ⟨hinv.1, ?_⟩
  have hres := hinv.2 (by rw [hl]; exact hlimit)
  rw [hl] at hres
  exact hres

/-- C2 witness: scenario S1's first two operations (limit 10, insert 4
bytes then 7 bytes, which evicts the first entry). -/
theorem c2_witness :
    0 ≤ (10 : Int) ∧
    ((memRun 10 [MemOp.put ⟨"foo", "v1.0.0", 0, [1, 1, 1, 1]⟩,
        MemOp.put ⟨"bar", "v1.0.0", 0, [1, 1, 1, 1, 1, 1, 1]⟩]).size =
      sumLen (memRun 10 [MemOp.put ⟨"foo", "v1.0.0", 0, [1, 1, 1, 1]⟩,
        MemOp.put ⟨"bar", "v1.0.0", 0, [1, 1, 1, 1, 1, 1, 1]⟩]).list ∧
      ((memRun 10 [MemOp.put ⟨"foo", "v1.0.0", 0, [1, 1, 1, 1]⟩,
        MemOp.put ⟨"bar", "v1.0.0", 0, [1, 1, 1, 1, 1, 1, 1]⟩]).size ≤ 10 ∨
       (memRun 10 [MemOp.put ⟨"foo", "v1.0.0", 0, [1, 1, 1, 1]⟩,
        MemOp.put ⟨"bar", "v1.0.0", 0, [1, 1, 1, 1, 1, 1, 1]⟩]).list = [])) :=
  ⟨by decide,
    c2_memory_size_invariant 10
      [MemOp.put ⟨"foo", "v1.0.0", 0, [1, 1, 1, 1]⟩,
       MemOp.put ⟨"bar", "v1.0.0", 0, [1, 1, 1, 1, 1, 1, 1]⟩] (by decide)⟩

/-- C1 counterexample: starting from the reachable state obtained by
`Put(a); Put(b)` (recency list `[b, a]`), a duplicate `Put` of `a`'s key
changes the store state: the embedded `lookup` splices the existing node to
the head, so the recency order becomes `[a, b]`. This refutes the claim
that a duplicate `Put` leaves the state entirely unchanged. -/
theorem c1_counterexample :
    memPut ⟨"a", "v1.0.0", 5, [7]⟩
        (memRun (-1) [MemOp.put snapA, MemOp.put snapB]) ≠
      memRun (-1) [MemOp.put snapA, MemOp.put snapB] := by
  decide

/-- C1 (corrected): a `Put` whose key is already present returns success,
inserts no node and leaves `size` (and `limit`) unchanged — the nodes are a
permutation of the old nodes and the length is unchanged — but it does
refresh recency: the existing hit node is spliced to the head of the
list. -/
theorem c1_put_dedup_refreshes (m : Mem) (s hit : Snapshot)
    (hf : findSnap s.Module s.Version m.list = some hit) :
    memPut s m = { m with list := hit :: removeFirst s.Module s.Version m.list } ∧
    (memPut s m).size = m.size ∧
    (memPut s m).limit = m.limit ∧
    (memPut s m).list.length = m.list.length ∧
    (memPut s m).list.Perm m.list := by
  have he := memPut_eq_dup s m hit hf
  refine ⟨he, by rw [he], by rw [he], ?_, ?_⟩
  · rw [he]
    show (hit :: removeFirst s.Module s.Version m.list).length = m.list.length
    simp only [List.length_cons]
    exact length_removeFirst _ _ _ _ hf
  · rw [he]
    exact (perm_removeFirst s.Module s.Version m.list hit hf).symm

/-- C1 witness: duplicate `Put` of key `a` (with different payload) on the
state with recency list `[b, a]`. -/
theorem c1_witness :
    findSnap "a" "v1.0.0" [snapB, snapA] = some snapA ∧
    memPut ⟨"a", "v1.0.0", 5, [7]⟩ ⟨-1, 3, [snapB, snapA]⟩ =
      ⟨-1, 3, [snapA, snapB]⟩ := by
  have h := c1_put_dedup_refreshes ⟨-1, 3, [snapB, snapA]⟩
    ⟨"a", "v1.0.0", 5, [7]⟩ snapA (by decide)
  refine ⟨by decide, ?_⟩
  rw [h.1]
  decide

/-- C8: a memory-tier `Get` that hits returns the first node with the
queried key, whose `Module` and `Version` equal the query arguments; after
the call that node is the head of the list, and whenever the previous head
did not itself match the key, the previous head is the hit node's immediate
successor. -/
theorem c8_get_hit_moves_to_head (m : Mem) (module version : String)
    (hit : Snapshot) (hf : findSnap module version m.list = some hit) :
    (memGet module version m).1 = some hit ∧
    hit.Module = module ∧ hit.Version = version ∧
    (memGet module version m).2.list = hit :: removeFirst module version m.list ∧
    (∀ hd rest, m.list = hd :: rest → keyMatches hd module version = false →
      (memGet module version m).2.list =
        hit :: hd :: removeFirst module version rest) := by
  have he := memGet_eq_hit module version m hit hf
  obtain ⟨hM, hV⟩ := findSnap_fields module version m.list hit hf
  refine ⟨by rw [he], hM, hV, by rw [he], ?_⟩
  intro hd rest hlist hkm
  rw [he]
  show hit :: removeFirst module version m.list = _
  rw [hlist]
  show hit :: removeFirst module version (hd :: rest) =
    hit :: hd :: removeFirst module version rest
  rw [show removeFirst module version (hd :: rest) =
      if keyMatches hd module version then rest
      else hd :: removeFirst module version rest from rfl,
    if_neg (by simp [hkm])]

/-- C8 witness: `Get` of key `a` on the state with recency list `[b, a]`
moves `a` to the head, with `b` as its immediate successor. -/
theorem c8_witness :
    findSnap "a" "v1.0.0" [snapB, snapA] = some snapA ∧
    (memGet "a" "v1.0.0" ⟨-1, 3, [snapB, snapA]⟩).1 = some snapA ∧
    (memGet "a" "v1.0.0" ⟨-1, 3, [snapB, snapA]⟩).2.list = [snapA, snapB] := by
  have h := c8_get_hit_moves_to_head ⟨-1, 3, [snapB, snapA]⟩ "a" "v1.0.0" snapA
    (by decide)
  refine ⟨by decide, h.1, ?_⟩
  have h5 := h.2.2.2.2 snapB [snapA] rfl (by decide)
  rw [h5]
  decide
/-! ## Disk tier (`pkg/store/disk.go`) -/

/-- Model of `Snapshot.Key()`: `module + "@" + version`. -/
def snapshotKey (module version : String) : String := module ++ "@" ++ version

/-- The name of the `.time` sibling file of a disk-cache entry
(`filepath.Join(dir, key + ".time")`, with `Join` modelled as `/`
concatenation). -/
def timeFileName (dir module version : String) : String :=
  dir ++ "/" ++ snapshotKey module version ++ ".time"

/-- The name of the `.zip` sibling file of a disk-cache entry. -/
def zipFileName (dir module version : String) : String :=
  dir ++ "/" ++ snapshotKey module version ++ ".zip"

/-- Model of `os.Remove`: the file system is the finite set of present file
names (contents are irrelevant to `Del`); removing an absent name is an
error. -/
def osRemove (fs : Finset String) (name : String) : Except String (Finset String) :=
  if name ∈ fs then Except.ok (fs.erase name) else Except.error "no such file"

/-- Model of `disk.Del`: remove `<key>.time`, returning its error when that
fails (in which case the `.zip` file is not touched), then remove
`<key>.zip` and return that result. -/
def diskDel (dir module version : String) (fs : Finset String) :
    Except String (Finset String) :=
  match osRemove fs (timeFileName dir module version) with
  | Except.error e => Except.error e
  | Except.ok fs2 => osRemove fs2 (zipFileName dir module version)

theorem timeFileName_ne_zipFileName (dir module version : String) :
    timeFileName dir module version ≠ zipFileName dir module version := by
  intro he
  unfold timeFileName zipFileName at he
  have hd := congrArg String.data he
  simp only [String.data_append] at hd
  have htail := List.append_cancel_left hd
  exact absurd htail (by decide)

/-- C9: disk-tier `Del` removes both sibling files `<key>.time` and
`<key>.zip` (when both are present the call succeeds and afterwards neither
file exists), and it returns an error if either file is absent. -/
theorem c9_disk_del (dir module version : String) (fs : Finset String) :
    (timeFileName dir module version ∈ fs →
      zipFileName dir module version ∈ fs →
      ∃ fs2, diskDel dir module version fs = Except.ok fs2 ∧
        timeFileName dir module version ∉ fs2 ∧
        zipFileName dir module version ∉ fs2) ∧
    ((timeFileName dir module version ∉ fs ∨
      zipFileName dir module version ∉ fs) →
      ∃ e, diskDel dir module version fs = Except.error e) := by
  constructor
  · intro ht hz
    have hne := timeFileName_ne_zipFileName dir module version
    have hz2 : zipFileName dir module version ∈
        fs.erase (timeFileName dir module version) :=
      Finset.mem_erase.mpr ⟨fun he => hne he.symm, hz⟩
    refine ⟨(fs.erase (timeFileName dir module version)).erase
      (zipFileName dir module version), ?_, ?_, ?_⟩
    · unfold diskDel osRemove
      rw [if_pos ht]
      show (if zipFileName dir module version ∈
            fs.erase (timeFileName dir module version) then
          Except.ok ((fs.erase (timeFileName dir module version)).erase
            (zipFileName dir module version))
        else Except.error "no such file") = _
      rw [if_pos hz2]
    · intro hmem
      exact Finset.not_mem_erase _ _ (Finset.mem_of_mem_erase hmem)
    · exact Finset.not_mem_erase _ _
  · intro habs
    by_cases ht : timeFileName dir module version ∈ fs
    · have hz1 : zipFileName dir module version ∉ fs := by
        rcases habs with h1 | h1
        · exact absurd ht h1
        · exact h1
      refine ⟨"no such file", ?_⟩
      unfold diskDel osRemove
      rw [if_pos ht]
      show (if zipFileName dir module version ∈
            fs.erase (timeFileName dir module version) then
          Except.ok ((fs.erase (timeFileName dir module version)).erase
            (zipFileName dir module version))
        else Except.error "no such file") = _
      rw [if_neg (fun hmem => hz1 (Finset.mem_of_mem_erase hmem))]
    · refine ⟨"no such file", ?_⟩
      unfold diskDel osRemove
      rw [if_neg ht]

/-- C9 witness: with both `d/m@v1.time` and `d/m@v1.zip` present, `Del`
succeeds and removes both; with only the `.time` file present (or only the
`.zip` file), `Del` errors. -/
theorem c9_witness :
    (∃ fs2, diskDel "d" "m" "v1"
        {timeFileName "d" "m" "v1", zipFileName "d" "m" "v1"} = Except.ok fs2 ∧
      timeFileName "d" "m" "v1" ∉ fs2 ∧ zipFileName "d" "m" "v1" ∉ fs2) ∧
    (∃ e, diskDel "d" "m" "v1" {timeFileName "d" "m" "v1"} = Except.error e) := by
  have h1 := (c9_disk_del "d" "m" "v1"
    {timeFileName "d" "m" "v1", zipFileName "d" "m" "v1"}).1 (by decide) (by decide)
  have h2 := (c9_disk_del "d" "m" "v1" {timeFileName "d" "m" "v1"}).2
    (Or.inr (by decide))
  exact ⟨h1, h2⟩

/-! ## Repo-root resolution (`RepoRoot`, src/unnamed/part_004 lines 239-247) -/

/-- Model of Go `strings.HasPrefix` on character lists. -/
def hasPrefixL : List Char → List Char → Bool
  | _, [] => true
  | [], _ :: _ => false
  | c :: cs, p :: ps => decide (c = p) && hasPrefixL cs ps

/-- Model of Go `strings.HasPrefix` on strings. -/
def hasPrefixS (s pre : String) : Bool := hasPrefixL s.data pre.data

/-- Go `strings.Split(module, "/")` lifted to `String` values. -/
def splitSlash (s : String) : List String := (splitOnChar '/' s.data).map String.mk

/-- Model of `RepoRoot`: for the well-known hosting prefixes the result is
computed purely from the module string (split on `/`, at least three
segments required, root is the first three joined, sub-path the rest); the
fall-through `?go-get=1` HTTPS branch is modelled by the `fetch` oracle. -/
def repoRoot (fetch : String → Except String (String × String)) (module : String) :
    Except String (String × String) :=
  if hasPrefixS module "github.com/" || hasPrefixS module "bitbucket.org/" then
    if (splitSlash module).length < 3 then Except.error "bad module name"
    else Except.ok (joinSlash ((splitSlash module).take 3),
      joinSlash ((splitSlash module).drop 3))
  else fetch module

/-- C6: for a module with a well-known hosting prefix, `RepoRoot` is
independent of the network oracle (this branch performs no network I/O);
with fewer than three `/`-separated segments it fails with the
bad-module-name error, and otherwise it returns the first three segments
joined by `/` as the root and the remaining segments joined by `/` as the
sub-path. -/
theorem c6_repoRoot_wellknown (module : String)
    (f g : String → Except String (String × String))
    (h : (hasPrefixS module "github.com/" ||
      hasPrefixS module "bitbucket.org/") = true) :
    repoRoot f module = repoRoot g module ∧
    ((splitSlash module).length < 3 →
      repoRoot f module = Except.error "bad module name") ∧
    (3 ≤ (splitSlash module).length →
      repoRoot f module =
        Except.ok (joinSlash ((splitSlash module).take 3),
          joinSlash ((splitSlash module).drop 3))) := by
  unfold repoRoot
  rw [if_pos h, if_pos h]
  refine ⟨rfl, ?_, ?_⟩
  · intro hlt
    rw [if_pos hlt]
  · intro hge
    rw [if_neg (by omega)]

/-- C6 witness: `github.com/u/r/sub/dir` resolves without consulting the
network oracle to root `github.com/u/r` and sub-path `sub/dir`. -/
theorem c6_witness :
    (hasPrefixS "github.com/u/r/sub/dir" "github.com/" ||
      hasPrefixS "github.com/u/r/sub/dir" "bitbucket.org/") = true ∧
    repoRoot (fun _ => Except.error "network used") "github.com/u/r/sub/dir" =
      Except.ok ("github.com/u/r", "sub/dir") := by
  have h := c6_repoRoot_wellknown "github.com/u/r/sub/dir"
    (fun _ => Except.error "network used") (fun _ => Except.error "network used")
    (by decide)
  refine ⟨by decide, ?_⟩
  rw [h.2.2 (by decide)]
  rfl

/-! ## Fill-back loop of the fetch coordinator (`pkg/api/api.go` 157-169) -/

/-- Model of the fill-back loop
`for i := len(api.stores) - 1; i >= 0; i-- { ... }` of `api.module`: each
tier is an abstract stateful `Put` function (state in, snapshot in, new
state and error out). The loop is parameterised by the loop counter; the
call processes index `i` and recurses downwards, threading the per-tier
states. It returns the final tier states, the log lines produced for
failed `Put`s (`api.log("api.module.Put", ..., "error", err)`), and the
trace of attempted tier indices in order. -/
def fillLoop {σ : Type} [Inhabited σ]
    (puts : List (σ → Snapshot → σ × Except String Unit)) (snap : Snapshot) :
    Nat → List σ → List σ × List String × List Nat
  | 0, states => (states, [], [])
  | i + 1, states =>
    let r := (puts.getD i (fun st _ => (st, Except.ok ()))) (states.getD i default) snap
    let res := fillLoop puts snap i (states.set i r.1)
    (res.1,
      (match r.2 with
       | Except.ok _ => res.2.1
       | Except.error e => ("api.module.Put " ++ e) :: res.2.1),
      i :: res.2.2)

/-- Model of the tail of `api.module` after a successful fetch: run the
fill-back loop over all stores, then return the fetched bytes and
timestamp with a nil error regardless of `Put` failures. -/
def apiModuleFill {σ : Type} [Inhabited σ]
    (puts : List (σ → Snapshot → σ × Except String Unit)) (states : List σ)
    (snap : Snapshot) (data : List Nat) (ts : Int) :
    (List σ × List String × List Nat) × Except String (List Nat × Int) :=
  (fillLoop puts snap puts.length states, Except.ok (data, ts))

theorem fillLoop_attempts {σ : Type} [Inhabited σ]
    (puts : List (σ → Snapshot → σ × Except String Unit)) (snap : Snapshot)
    (n : Nat) : ∀ states : List σ,
    (fillLoop puts snap n states).2.2 = (List.range n).reverse := by
  induction n with
  | zero => intro states; rfl
  | succ i ih =>
    intro states
    show i :: (fillLoop puts snap i _).2.2 = (List.range (i + 1)).reverse
    rw [ih, List.range_succ, List.reverse_append]
    rfl

theorem getD_set_ne {A : Type} [Inhabited A] (l : List A) (i j : Nat) (a : A)
    (h : i ≠ j) : (l.set i a).getD j default = l.getD j default := by
  rw [List.getD_eq_getElem?_getD, List.getElem?_set_ne h, ← List.getD_eq_getElem?_getD]

theorem getD_set_self {A : Type} [Inhabited A] (l : List A) (i : Nat) (a : A)
    (h : i < l.length) : (l.set i a).getD i default = a := by
  rw [List.getD_eq_getElem?_getD, List.getElem?_set_self h]
  rfl

theorem fillLoop_states {s : Type} [Inhabited s]
    (puts : List (s → Snapshot → s × Except String Unit)) (snap : Snapshot)
    (n : Nat) : ∀ states : List s, n ≤ states.length →
    ∀ j, j < states.length →
    (fillLoop puts snap n states).1.getD j default =
      if j < n then
        ((puts.getD j (fun st _ => (st, Except.ok ())))
          (states.getD j default) snap).1
      else states.getD j default := by
  induction n with
  | zero =>
    intro states _ j _
    simp [fillLoop]
  | succ i ih =>
    intro states hn j hj
    have hset : (states.set i ((puts.getD i (fun st _ => (st, Except.ok ())))
        (states.getD i default) snap).1).length = states.length :=
      List.length_set states _ _
    have hih := ih (states.set i ((puts.getD i (fun st _ => (st, Except.ok ())))
        (states.getD i default) snap).1) (by rw [hset]; omega) j (by rw [hset]; omega)
    show (fillLoop puts snap i _).1.getD j default = _
    rw [hih]
    by_cases hji : j < i
    · rw [if_pos hji, if_pos (by omega),
        getD_set_ne states i j _ (by omega)]
    · by_cases hje : j = i
      · subst hje
        rw [if_neg hji, if_pos (by omega),
          getD_set_self states j _ (by omega)]
      · rw [if_neg hji, if_neg (by omega),
          getD_set_ne states i j _ (by omega)]

theorem fillLoop_logs {s : Type} [Inhabited s]
    (puts : List (s → Snapshot → s × Except String Unit)) (snap : Snapshot)
    (n : Nat) : ∀ states : List s, n ≤ states.length →
    (fillLoop puts snap n states).2.1 =
      (List.range n).reverse.filterMap (fun idx =>
        match ((puts.getD idx (fun st _ => (st, Except.ok ())))
            (states.getD idx default) snap).2 with
        | Except.ok _ => none
        | Except.error e => some ("api.module.Put " ++ e)) := by
  induction n with
  | zero => intro states _; rfl
  | succ i ih =>
    intro states hn
    have hset : (states.set i ((puts.getD i (fun st _ => (st, Except.ok ())))
        (states.getD i default) snap).1).length = states.length :=
      List.length_set states _ _
    have hih := ih (states.set i ((puts.getD i (fun st _ => (st, Except.ok ())))
        (states.getD i default) snap).1) (by rw [hset]; omega)
    have hcongr : ∀ idx ∈ (List.range i).reverse,
        (match ((puts.getD idx (fun st _ => (st, Except.ok ())))
            ((states.set i ((puts.getD i (fun st _ => (st, Except.ok ())))
              (states.getD i default) snap).1).getD idx default) snap).2 with
         | Except.ok _ => none
         | Except.error e => some ("api.module.Put " ++ e)) =
        (match ((puts.getD idx (fun st _ => (st, Except.ok ())))
            (states.getD idx default) snap).2 with
         | Except.ok _ => none
         | Except.error e => some ("api.module.Put " ++ e)) := by
      intro idx hidx
      have hlt : idx < i := List.mem_range.mp (List.mem_reverse.mp hidx)
      rw [getD_set_ne states i idx _ (by omega)]
    rw [List.range_succ, List.reverse_append]
    show (match ((puts.getD i (fun st _ => (st, Except.ok ())))
        (states.getD i default) snap).2 with
      | Except.ok _ => (fillLoop puts snap i _).2.1
      | Except.error e => ("api.module.Put " ++ e) :: (fillLoop puts snap i _).2.1) = _
    rw [hih, List.filterMap_congr hcongr]
    show _ = List.filterMap _ (i :: (List.range i).reverse)
    rw [List.filterMap_cons]
    cases hr : ((puts.getD i (fun st _ => (st, Except.ok ())))
        (states.getD i default) snap).2 with
    | ok u => rfl
    | error e => rfl

/-- C7: on a full cache miss, after the fetch succeeds the coordinator
fills the store tiers in inverse order (`i` from `len(S)-1` down to `0`),
every tier receives its `Put` regardless of failures at other tiers, each
failed `Put` only produces a log line (in descending tier order), and the
user request still returns the fetched bytes and timestamp with no
error. -/
theorem c7_fillback {s : Type} [Inhabited s]
    (puts : List (s → Snapshot → s × Except String Unit)) (states : List s)
    (snap : Snapshot) (data : List Nat) (ts : Int)
    (hlen : states.length = puts.length) :
    (fillLoop puts snap puts.length states).2.2 =
      (List.range puts.length).reverse ∧
    (∀ i, i < puts.length →
      (fillLoop puts snap puts.length states).1.getD i default =
        ((puts.getD i (fun st _ => (st, Except.ok ())))
          (states.getD i default) snap).1) ∧
    (fillLoop puts snap puts.length states).2.1 =
      (List.range puts.length).reverse.filterMap (fun idx =>
        match ((puts.getD idx (fun st _ => (st, Except.ok ())))
            (states.getD idx default) snap).2 with
        | Except.ok _ => none
        | Except.error e => some ("api.module.Put " ++ e)) ∧
    (apiModuleFill puts states snap data ts).2 = Except.ok (data, ts) := by
  refine ⟨fillLoop_attempts puts snap puts.length states, ?_,
    fillLoop_logs puts snap puts.length states (by omega), rfl⟩
  intro i hi
  rw [fillLoop_states puts snap puts.length states (by omega) i (by omega),
    if_pos hi]

/-- Two concrete tiers for the C7 witness: tier 0 accepts the snapshot,
tier 1 always fails its `Put`. -/
def demoPuts : List (List Snapshot → Snapshot → List Snapshot × Except String Unit) :=
  [fun st sn => (sn :: st, Except.ok ()),
   fun st _ => (st, Except.error "disk full")]

/-- C7 witness: with tier 1 failing, the loop still attempts tiers in the
order `[1, 0]`, tier 0 still stores the snapshot, the failure is logged,
and the request returns the data with no error. -/
theorem c7_witness :
    ([[], []] : List (List Snapshot)).length = demoPuts.length ∧
    (fillLoop demoPuts snapA demoPuts.length [[], []]).2.2 = [1, 0] ∧
    (fillLoop demoPuts snapA demoPuts.length [[], []]).1 = [[snapA], []] ∧
    (fillLoop demoPuts snapA demoPuts.length [[], []]).2.1 =
      ["api.module.Put disk full"] ∧
    (apiModuleFill demoPuts [[], []] snapA [9] 0).2 = Except.ok ([9], 0) := by
  have h := c7_fillback demoPuts [[], []] snapA [9] 0 rfl
  exact ⟨rfl, by rw [h.1]; rfl, rfl, rfl, h.2.2.2⟩

/-! ## Case-escaping and bang-decoding (`pkg/vcs/gomod.go` 100-126 and
`pkg/api/api.go` 80-96) -/

/-- Runes are modelled as Unicode code points (naturals); `utf8.RuneSelf`
is 128 and `'!'` is 33, `'A'..'Z'` are 65..90 and `'a'..'z'` are 97..122. -/
def isUpperRune (r : Nat) : Bool := decide (65 ≤ r) && decide (r ≤ 90)

/-- The escape loop of `encodeString`: each upper-case letter becomes `!`
followed by its lower-case form (`'!', byte(r+'a'-'A')`); other runes are
copied. -/
def escapeRunes : List Nat → List Nat
  | [] => []
  | r :: rest =>
    if isUpperRune r then 33 :: (r + 32) :: escapeRunes rest
    else r :: escapeRunes rest

/-- Model of `encodeString`: fail on `!` or a non-ASCII rune; return the
input unchanged when it has no upper-case letter, else the escaped form. -/
def encodeString (str : List Nat) : Except String (List Nat) :=
  if str.any (fun r => decide (r = 33) || decide (128 ≤ r)) then
    Except.error "internal error: inconsistency in EncodePath"
  else if str.any isUpperRune then Except.ok (escapeRunes str)
  else Except.ok str

/-- `unicode.ToUpper` restricted to the ASCII range (the only inputs it
receives from `decodeBangs` on ASCII module paths). -/
def runeToUpper (r : Nat) : Nat := if 97 ≤ r ∧ r ≤ 122 then r - 32 else r

/-- The scan of `decodeBangs` with its `bang` flag: after a `!` the next
rune is upper-cased; `!` itself is not emitted. -/
def decodeBangsGo (bang : Bool) : List Nat → List Nat
  | [] => []
  | r :: rest =>
    if bang then runeToUpper r :: decodeBangsGo false rest
    else if r = 33 then decodeBangsGo true rest
    else r :: decodeBangsGo false rest

/-- Model of `decodeBangs`. -/
def decodeBangs (str : List Nat) : List Nat := decodeBangsGo false str

theorem decodeBangs_escape (l : List Nat) (h : ∀ r ∈ l, r < 128 ∧ r ≠ 33) :
    decodeBangsGo false (escapeRunes l) = l := by
  induction l with
  | nil => rfl
  | cons r rest ih =>
    have hr := h r (by simp)
    have hrest : ∀ x ∈ rest, x < 128 ∧ x ≠ 33 := fun x hx => h x (by simp [hx])
    by_cases hu : isUpperRune r = true
    · simp only [escapeRunes, if_pos hu]
      show decodeBangsGo false (33 :: (r + 32) :: escapeRunes rest) = r :: rest
      have hbounds : 65 ≤ r ∧ r ≤ 90 := by
        unfold isUpperRune at hu
        simp only [Bool.and_eq_true, decide_eq_true_eq] at hu
        exact hu
      show (if (33 : Nat) = 33 then decodeBangsGo true ((r + 32) :: escapeRunes rest)
        else 33 :: decodeBangsGo false ((r + 32) :: escapeRunes rest)) = r :: rest
      rw [if_pos rfl]
      show runeToUpper (r + 32) :: decodeBangsGo false (escapeRunes rest) = r :: rest
      rw [ih hrest]
      unfold runeToUpper
      rw [if_pos (by omega)]
      have : r + 32 - 32 = r := by omega
      rw [this]
    · simp only [escapeRunes, if_neg hu]
      show decodeBangsGo false (r :: escapeRunes rest) = r :: rest
      show (if r = 33 then decodeBangsGo true (escapeRunes rest)
        else r :: decodeBangsGo false (escapeRunes rest)) = r :: rest
      rw [if_neg hr.2, ih hrest]

theorem decodeBangs_id (l : List Nat) (h : ∀ r ∈ l, r ≠ 33) :
    decodeBangsGo false l = l := by
  induction l with
  | nil => rfl
  | cons r rest ih =>
    show (if r = 33 then decodeBangsGo true rest
      else r :: decodeBangsGo false rest) = r :: rest
    rw [if_neg (h r (by simp)), ih (fun x hx => h x (by simp [hx]))]

/-- C10: for every rune sequence of ASCII runes with no `!`, `encodeString`
succeeds and `decodeBangs` is a left inverse of it: the router's
bang-decoding recovers exactly the module path that the on-disk module
cache escaping encoded. -/
theorem c10_decode_left_inverse (str : List Nat)
    (h : ∀ r ∈ str, r < 128 ∧ r ≠ 33) :
    ∃ e, encodeString str = Except.ok e ∧ decodeBangs e = str := by
  have hbad : str.any (fun r => decide (r = 33) || decide (128 ≤ r)) = false := by
    rw [List.any_eq_false]
    intro r hr
    have := h r hr
    simp only [Bool.or_eq_true, decide_eq_true_eq]
    omega
  unfold encodeString
  rw [hbad]
  simp only [Bool.false_eq_true, if_false]
  by_cases hup : str.any isUpperRune = true
  · rw [if_pos hup]
    exact ⟨escapeRunes str, rfl, decodeBangs_escape str h⟩
  · rw [if_neg hup]
    exact ⟨str, rfl, decodeBangs_id str (fun r hr => (h r hr).2)⟩

/-- C10 witness: the rune sequence of `"aZb"` (97, 90, 98) encodes to
`"a!zb"` and decodes back. -/
theorem c10_witness :
    (∀ r ∈ [97, 90, 98], r < 128 ∧ r ≠ 33) ∧
    (∃ e, encodeString [97, 90, 98] = Except.ok e ∧ decodeBangs e = [97, 90, 98]) :=
  ⟨by decide, c10_decode_left_inverse [97, 90, 98] (by decide)⟩

/-! ## Vendored-path filter of the archive builder (`isVendoredPackage`,
src/unnamed/part_003 lines 106-116) -/

theorem hasPrefixL_iff (s pat : List Char) :
    hasPrefixL s pat = true ↔ ∃ rest, s = pat ++ rest := by
  induction pat generalizing s with
  | nil =>
    simp only [List.nil_append]
    constructor
    · intro _; exact ⟨s, rfl⟩
    · intro _
      cases s <;> rfl
  | cons p ps ih =>
    cases s with
    | nil =>
      constructor
      · intro h; exact absurd h (by simp [hasPrefixL])
      · rintro ⟨rest, hrest⟩
        exact absurd hrest (by simp)
    | cons c cs =>
      show (decide (c = p) && hasPrefixL cs ps) = true ↔ _
      simp only [Bool.and_eq_true, decide_eq_true_eq, ih]
      constructor
      · rintro ⟨rfl, rest, rfl⟩
        exact ⟨rest, rfl⟩
      · rintro ⟨rest, hrest⟩
        rw [List.cons_append] at hrest
        injection hrest with h1 h2
        exact ⟨h1, rest, h2⟩

/-- Model of `strings.Index(name, pat) >= 0`: the pattern occurs somewhere
in the string. -/
def subOccurs (pat : List Char) : List Char → Bool
  | [] => hasPrefixL [] pat
  | c :: cs => hasPrefixL (c :: cs) pat || subOccurs pat cs

theorem subOccurs_iff (pat s : List Char) :
    subOccurs pat s = true ↔ ∃ p rest, s = p ++ pat ++ rest := by
  induction s with
  | nil =>
    show hasPrefixL [] pat = true ↔ _
    rw [hasPrefixL_iff]
    constructor
    · rintro ⟨rest, hrest⟩
      exact ⟨[], rest, by simpa using hrest⟩
    · rintro ⟨p, rest, hrest⟩
      have hlen := congrArg List.length hrest
      simp only [List.length_nil, List.length_append] at hlen
      refine ⟨rest, ?_⟩
      have hp : p = [] := List.length_eq_zero.mp (by omega)
      rw [hp] at hrest
      simpa using hrest
  | cons c cs ih =>
    show (hasPrefixL (c :: cs) pat || subOccurs pat cs) = true ↔ _
    simp only [Bool.or_eq_true, hasPrefixL_iff, ih]
    constructor
    · rintro (⟨rest, hrest⟩ | ⟨p, rest, hrest⟩)
      · exact ⟨[], rest, by simpa using hrest⟩
      · exact ⟨c :: p, rest, by simp [hrest]⟩
    · rintro ⟨p, rest, hrest⟩
      cases p with
      | nil =>
        left
        exact ⟨rest, by simpa using hrest⟩
      | cons c2 p2 =>
        right
        rw [List.cons_append] at hrest
        injection hrest with h1 h2
        exact ⟨p2, rest, h2⟩

theorem any_slash_iff (l : List Char) :
    (l.any (fun c => c == '/')) = true ↔ '/' ∈ l := by
  rw [List.any_eq_true]
  constructor
  · rintro ⟨x, hx, hxe⟩
    rw [show x = '/' from by simpa using hxe] at hx
    exact hx
  · intro h
    exact ⟨'/', h, by simp⟩

theorem slash_mem_drop (front r : List Char) (k : Nat) (hk : k ≤ front.length) :
    '/' ∈ (front ++ '/' :: r).drop k := by
  rw [List.drop_append_of_le_length hk]
  simp

/-- Model of `isVendoredPackage`: the source sets `i = len("vendor/")` when
the name starts with `vendor/`; otherwise, when `/vendor/` occurs anywhere,
it sets `i = len("/vendor/")` (`i += len("/vendor/")` with `i = 0`, NOT
`j + len("/vendor/")` where `j` is the occurrence index) and then reports
whether `name[i:]` contains a further `/`. -/
def isVendoredPackage (name : String) : Bool :=
  if hasPrefixS name "vendor/" then
    (name.data.drop 7).any (fun c => c == '/')
  else if subOccurs ("/vendor/").data name.data then
    (name.data.drop 8).any (fun c => c == '/')
  else false

/-- The claimed shape of a vendored path: a path segment `vendor` with at
least one further path segment beneath it — either the prefix form
`vendor/.../...` or the inner form `.../vendor/.../...` (a further `/`
after the `vendor/` segment). -/
def VendoredShape (name : String) : Prop :=
  (∃ rest : List Char, name.data = ("vendor/").data ++ rest ∧ '/' ∈ rest) ∨
  (∃ p rest : List Char, name.data = p ++ ("/vendor/").data ++ rest ∧ '/' ∈ rest)

/-- The extra paths the source also rejects: any occurrence of `/vendor/`
at a positive offset, even with no further segment beneath it (a file
directly inside a non-root `vendor` directory). -/
def NonRootVendorMid (name : String) : Prop :=
  ∃ p rest : List Char, p ≠ [] ∧ name.data = p ++ ("/vendor/").data ++ rest

/-- Decidable scan equivalent to the inner-form disjunct of
`VendoredShape`. -/
def midSlashB : List Char → Bool
  | [] => false
  | c :: cs =>
    (hasPrefixL (c :: cs) ("/vendor/").data &&
      (((c :: cs).drop 8).any (fun c2 => c2 == '/'))) || midSlashB cs

theorem midSlashB_iff (s : List Char) :
    midSlashB s = true ↔
      ∃ p rest, s = p ++ ("/vendor/").data ++ rest ∧ '/' ∈ rest := by
  induction s with
  | nil =>
    constructor
    · intro h; exact absurd h (by simp [midSlashB])
    · rintro ⟨p, rest, hrest, _⟩
      have hlen := congrArg List.length hrest
      simp at hlen
      omega
  | cons c cs ih =>
    show ((hasPrefixL (c :: cs) ("/vendor/").data &&
        (((c :: cs).drop 8).any (fun c2 => c2 == '/'))) || midSlashB cs) = true ↔ _
    simp only [Bool.or_eq_true, Bool.and_eq_true, ih]
    constructor
    · rintro (⟨hpre, hany⟩ | ⟨p, rest, hrest, hsl⟩)
      · obtain ⟨rest, hrest⟩ := (hasPrefixL_iff _ _).mp hpre
        refine ⟨[], rest, by simpa using hrest, ?_⟩
        have hdrop : (c :: cs).drop 8 = rest := by
          rw [hrest]; exact List.drop_left ("/vendor/").data rest
        rw [hdrop] at hany
        exact (any_slash_iff rest).mp hany
      · exact ⟨c :: p, rest, by simp [hrest], hsl⟩
    · rintro ⟨p, rest, hrest, hsl⟩
      cases p with
      | nil =>
        left
        simp only [List.nil_append] at hrest
        refine ⟨(hasPrefixL_iff _ _).mpr ⟨rest, hrest⟩, ?_⟩
        have hdrop : (c :: cs).drop 8 = rest := by
          rw [hrest]; exact List.drop_left ("/vendor/").data rest
        rw [hdrop]
        exact (any_slash_iff rest).mpr hsl
      | cons c2 p2 =>
        right
        rw [List.cons_append] at hrest
        injection hrest with h1 h2
        exact ⟨p2, rest, h2, hsl⟩

theorem vendoredShape_iff_bool (name : String) :
    VendoredShape name ↔
      ((hasPrefixL name.data ("vendor/").data &&
        ((name.data.drop 7).any (fun c => c == '/'))) ||
       midSlashB name.data) = true := by
  unfold VendoredShape
  simp only [Bool.or_eq_true, Bool.and_eq_true, midSlashB_iff]
  constructor
  · rintro (⟨rest, hrest, hsl⟩ | h2)
    · left
      refine ⟨(hasPrefixL_iff _ _).mpr ⟨rest, hrest⟩, ?_⟩
      have hdrop : name.data.drop 7 = rest := by
        rw [hrest]; exact List.drop_left ("vendor/").data rest
      rw [hdrop]
      exact (any_slash_iff rest).mpr hsl
    · exact Or.inr h2
  · rintro (⟨hpre, hany⟩ | h2)
    · left
      obtain ⟨rest, hrest⟩ := (hasPrefixL_iff _ _).mp hpre
      refine ⟨rest, hrest, ?_⟩
      have hdrop : name.data.drop 7 = rest := by
        rw [hrest]; exact List.drop_left ("vendor/").data rest
      rw [hdrop] at hany
      exact (any_slash_iff rest).mp hany
    · exact Or.inr h2

/-- C4 counterexample: the file `pkg/vendor/b.go` sits directly inside a
non-root `vendor` directory — it has no further path segment beneath
`vendor` and so is not of the claimed vendored shape — yet
`isVendoredPackage` reports it as vendored (the scan offset `8` is counted
from the start of the string instead of from the `/vendor/` occurrence),
so the archive builder excludes it on vendoring grounds. -/
theorem c4_counterexample :
    isVendoredPackage "pkg/vendor/b.go" = true ∧
    ¬ VendoredShape "pkg/vendor/b.go" := by
  constructor
  · decide
  · intro hshape
    exact absurd ((vendoredShape_iff_bool _).mp hshape) (by decide)

/-- C4 (amended): the archive builder rejects as vendored exactly the file
paths that are of the claimed vendored shape (a `vendor` segment with at
least one further path segment beneath it) PLUS the paths containing
`/vendor/` at a positive offset, i.e. files directly inside a non-root
`vendor` directory are also excluded. -/
theorem c4_vendored_iff (name : String) :
    isVendoredPackage name = true ↔
      (VendoredShape name ∨ NonRootVendorMid name) := by
  unfold isVendoredPackage
  by_cases hp : hasPrefixS name "vendor/" = true
  · rw [if_pos hp]
    constructor
    · intro hany
      obtain ⟨rest, hrest⟩ := (hasPrefixL_iff name.data ("vendor/").data).mp hp
      left; left
      refine ⟨rest, hrest, ?_⟩
      have hdrop : name.data.drop 7 = rest := by
        rw [hrest]; exact List.drop_left ("vendor/").data rest
      rw [hdrop] at hany
      exact (any_slash_iff rest).mp hany
    · intro hshape
      rw [any_slash_iff]
      rcases hshape with (⟨rest, hrest, hsl⟩ | ⟨p, rest, hrest, hsl⟩) |
        ⟨p, rest, hpne, hrest⟩
      · have hdrop : name.data.drop 7 = rest := by
          rw [hrest]; exact List.drop_left ("vendor/").data rest
        rw [hdrop]
        exact hsl
      · have hre : name.data =
            (p ++ ['/', 'v', 'e', 'n', 'd', 'o', 'r']) ++ '/' :: rest := by
          rw [hrest, show ("/vendor/").data = ['/', 'v', 'e', 'n', 'd', 'o', 'r'] ++ ['/'] from by decide]; simp
        rw [hre]
        refine slash_mem_drop _ _ 7 ?_
        simp
      · have hre : name.data =
            (p ++ ['/', 'v', 'e', 'n', 'd', 'o', 'r']) ++ '/' :: rest := by
          rw [hrest, show ("/vendor/").data = ['/', 'v', 'e', 'n', 'd', 'o', 'r'] ++ ['/'] from by decide]; simp
        rw [hre]
        refine slash_mem_drop _ _ 7 ?_
        simp
  · rw [if_neg hp]
    by_cases hs : subOccurs ("/vendor/").data name.data = true
    · rw [if_pos hs]
      constructor
      · intro hany
        obtain ⟨p, rest, hrest⟩ := (subOccurs_iff _ _).mp hs
        by_cases hpn : p = []
        · subst hpn
          simp only [List.nil_append] at hrest
          left; right
          refine ⟨[], rest, by simpa using hrest, ?_⟩
          have hdrop : name.data.drop 8 = rest := by
            rw [hrest]; exact List.drop_left ("/vendor/").data rest
          rw [hdrop] at hany
          exact (any_slash_iff rest).mp hany
        · right
          exact ⟨p, rest, hpn, hrest⟩
      · intro hshape
        rw [any_slash_iff]
        rcases hshape with (⟨rest, hrest, hsl⟩ | ⟨p, rest, hrest, hsl⟩) |
          ⟨p, rest, hpne, hrest⟩
        · exact absurd ((hasPrefixL_iff _ _).mpr ⟨rest, hrest⟩)
            (by simpa [hasPrefixS] using hp)
        · by_cases hpn : p = []
          · subst hpn
            simp only [List.nil_append] at hrest
            have hdrop : name.data.drop 8 = rest := by
              rw [hrest]; exact List.drop_left ("/vendor/").data rest
            rw [hdrop]
            exact hsl
          · have hre : name.data =
                (p ++ ['/', 'v', 'e', 'n', 'd', 'o', 'r']) ++ '/' :: rest := by
              rw [hrest, show ("/vendor/").data = ['/', 'v', 'e', 'n', 'd', 'o', 'r'] ++ ['/'] from by decide]; simp
            rw [hre]
            refine slash_mem_drop _ _ 8 ?_
            have := List.length_pos.mpr hpn
            simp only [List.length_append, List.length_cons]
            omega
        · have hre : name.data =
              (p ++ ['/', 'v', 'e', 'n', 'd', 'o', 'r']) ++ '/' :: rest := by
            rw [hrest, show ("/vendor/").data = ['/', 'v', 'e', 'n', 'd', 'o', 'r'] ++ ['/'] from by decide]; simp
          rw [hre]
          refine slash_mem_drop _ _ 8 ?_
          have := List.length_pos.mpr hpne
          simp only [List.length_append, List.length_cons]
          omega
    · rw [if_neg hs]
      constructor
      · intro hfalse
        exact absurd hfalse (by simp)
      · intro hshape
        exfalso
        rcases hshape with (⟨rest, hrest, _⟩ | ⟨p, rest, hrest, _⟩) |
          ⟨p, rest, _, hrest⟩
        · exact absurd ((hasPrefixL_iff _ _).mpr ⟨rest, hrest⟩)
            (by simpa [hasPrefixS] using hp)
        · exact absurd ((subOccurs_iff _ _).mpr ⟨p, rest, hrest⟩) hs
        · exact absurd ((subOccurs_iff _ _).mpr ⟨p, rest, hrest⟩) hs

/-! ## Git backend: ref listing, commit resolution and pseudo-versions
(`gitVCS.List` / `gitVCS.commit` / `gitVCS.Timestamp`,
src/unnamed/part_003) -/

/-- Model of Go `strings.HasSuffix`. -/
def hasSuffixS (s suf : String) : Bool := hasPrefixL s.data.reverse suf.data.reverse

/-- Model of Go `strings.TrimSuffix`. -/
def dropSuffixS (s suf : String) : String :=
  if hasSuffixS s suf then String.mk (s.data.take (s.data.length - suf.data.length))
  else s

/-- Model of Go `strings.TrimPrefix`. -/
def dropPfxS (s pre : String) : String :=
  if hasPrefixS s pre then String.mk (s.data.drop pre.data.length) else s

/-- A committer timestamp, wall-clock fields as formatted by
`Format("20060102150405")`. -/
structure DateTime where
  year : Nat
  month : Nat
  day : Nat
  hour : Nat
  minute : Nat
  second : Nat
deriving DecidableEq

/-- A ref from the remote's advertisement: full name and target hash. -/
structure Ref where
  name : String
  hash : String
deriving DecidableEq

/-- A commit object: full hex hash and committer time. -/
structure Commit where
  hash : String
  time : DateTime
deriving DecidableEq

/-- The state of the fetched repository: advertised refs, commit objects,
and the annotated-tag objects mapping tag-object hash to target commit. -/
structure Repo where
  refs : List Ref
  commits : List Commit
  tagTargets : List (String × String)
deriving DecidableEq

/-- The ref scan of `gitVCS.List`: collect versions from tags named
`refs/tags/<tagPrefix>v...` (stripping `refs/tags/<tagPrefix>`), and
record the hash of `refs/heads/master` when observed. -/
def listScan (tagPfx : String) (refs : List Ref) : List String × String :=
  refs.foldl
    (fun acc ref =>
      if ref.name = "refs/heads/master" then (acc.1, ref.hash)
      else if hasPrefixS ref.name "refs/tags/" &&
          hasPrefixS ref.name ("refs/tags/" ++ tagPfx ++ "v") then
        (acc.1 ++ [dropPfxS ref.name ("refs/tags/" ++ tagPfx)], acc.2)
      else acc)
    ([], "")

/-- Model of `gitVCS.commit` after the (idempotent) fetch: strip
`+incompatible`; for a SemVer version scan the tag refs for an exact name
match, dereferencing annotated tags to their target; otherwise scan commit
objects for a full hash starting with `version.Hash()` (taking the last
match, as the `ForEach` assignment does); finally look the hash up among
the commit objects. -/
def gitCommit (repo : Repo) (version : String) : Except String Commit :=
  let v2 := dropSuffixS version "+incompatible"
  let h :=
    if isSemVer v2 then
      (repo.refs.filter (fun r => hasPrefixS r.name "refs/tags/")).foldl
        (fun acc t =>
          if t.name = "refs/tags/" ++ v2 then
            match repo.tagTargets.find? (fun pr => decide (pr.1 = t.hash)) with
            | some pr => pr.2
            | none => t.hash
          else acc)
        (versionHash v2)
    else
      repo.commits.foldl
        (fun acc ci => if hasPrefixS ci.hash (versionHash v2) then ci.hash else acc)
        (versionHash v2)
  match repo.commits.find? (fun ci => decide (ci.hash = h)) with
  | some ci => Except.ok ci
  | none => Except.error "object not found"

/-- Model of `gitVCS.Timestamp`: the committer time of the resolved
commit. -/
def gitTimestamp (repo : Repo) (version : String) : Except String DateTime :=
  match gitCommit repo version with
  | Except.error e => Except.error e
  | Except.ok ci => Except.ok ci.time

def digitChar (n : Nat) : Char := Char.ofNat (48 + n)

def natToStrAux : Nat → Nat → List Char
  | 0, _ => []
  | fuel + 1, n =>
    if n < 10 then [digitChar n]
    else natToStrAux fuel (n / 10) ++ [digitChar (n % 10)]

/-- Decimal rendering of a natural number. -/
def natToStr (n : Nat) : String := String.mk (natToStrAux (n + 1) n)

def pad2 (n : Nat) : String := if n < 10 then "0" ++ natToStr n else natToStr n

def pad4 (n : Nat) : String :=
  if n < 10 then "000" ++ natToStr n
  else if n < 100 then "00" ++ natToStr n
  else if n < 1000 then "0" ++ natToStr n
  else natToStr n

/-- Go `t.Format("20060102150405")`: zero-padded
`yyyymmddhhmmss`. -/
def formatStamp (t : DateTime) : String :=
  pad4 t.year ++ pad2 t.month ++ pad2 t.day ++
    pad2 t.hour ++ pad2 t.minute ++ pad2 t.second

/-- Model of `gitVCS.List` (src/unnamed/part_003 lines 43-94): scan the
advertised refs; if any tag survived, return the tag list; otherwise, if
`master` was observed, synthesize a single pseudo-version from the
timestamp of the commit resolved through the probe version
`v0.0.0-20060102150405-<short>` (the Go code slices `masterHash[:12]`,
which panics on a hash shorter than 12 — go-git hashes are 40 hex chars;
the model takes the first 12 characters); fail with the no-versions error
when there are neither. -/
def gitList (pfx : String) (repo : Repo) : Except String (List String) :=
  let tagPfx := if pfx ≠ "" then pfx ++ "/" else ""
  let scan := listScan tagPfx repo.refs
  if scan.1 ≠ [] then Except.ok scan.1
  else if scan.2 = "" then Except.error "no tags and no master branch found"
  else
    match gitTimestamp repo
        ("v0.0.0-20060102150405-" ++ String.mk (scan.2.data.take 12)) with
    | Except.error e => Except.error e
    | Except.ok t =>
      Except.ok ["v0.0.0-" ++ formatStamp t ++ "-" ++
        String.mk (scan.2.data.take 12)]

/-- C3: when no tag survives filtering and a master ref with hash `mh` was
observed (go-git hashes have 40 hex characters, so at least the 12 sliced
ones), and the probe version's commit resolution finds commit `ci`, `List`
returns exactly one version: `v0.0.0-<commit time formatted
yyyymmddhhmmss>-<first 12 chars of mh>`; and when neither a surviving tag
nor master was observed, `List` fails with the no-versions error. -/
theorem c3_list_pseudo_version (pfx : String) (repo : Repo) :
    (∀ mh ci, listScan (if pfx ≠ "" then pfx ++ "/" else "") repo.refs = ([], mh) →
      12 ≤ mh.data.length →
      gitCommit repo ("v0.0.0-20060102150405-" ++ String.mk (mh.data.take 12)) =
        Except.ok ci →
      gitList pfx repo =
        Except.ok ["v0.0.0-" ++ formatStamp ci.time ++ "-" ++
          String.mk (mh.data.take 12)]) ∧
    (listScan (if pfx ≠ "" then pfx ++ "/" else "") repo.refs = ([], "") →
      gitList pfx repo = Except.error "no tags and no master branch found") := by
  constructor
  · intro mh ci hscan hlen hci
    have hne : mh ≠ "" := by
      intro he
      rw [he] at hlen
      simp at hlen
    unfold gitList gitTimestamp
    simp only [hscan]
    simp [hne, hci]
  · intro hscan
    unfold gitList
    simp only [ne_eq, ite_not] at hscan
    simp [hscan]

/-- The repository of scenario S3: no tags, `master` at hash
`0e37d006457b…` whose commit time is 2018-09-10T18:16:07Z. -/
def s3Hash : String := "0e37d006457b0000000000000000000000000000"

def s3Repo : Repo :=
  { refs := [⟨"refs/heads/master", s3Hash⟩],
    commits := [⟨s3Hash, ⟨2018, 9, 10, 18, 16, 7⟩⟩],
    tagTargets := [] }

/-- C3 witness: scenario S3 — `List` yields exactly
`["v0.0.0-20180910181607-0e37d006457b"]`. -/
theorem c3_witness :
    listScan "" s3Repo.refs = ([], s3Hash) ∧
    gitList "" s3Repo = Except.ok ["v0.0.0-20180910181607-0e37d006457b"] := by
  have h := (c3_list_pseudo_version "" s3Repo).1 s3Hash
    ⟨s3Hash, ⟨2018, 9, 10, 18, 16, 7⟩⟩ (by decide) (by decide) (by rfl)
  refine ⟨by decide, ?_⟩
  rw [h]
  rfl
